import Mathlib

/-!
Shallow embedding of the huffnpuff Huffman codec (src/huffman.rs) and proofs
of the specified properties.

Conventions of the embedding:
* Rust `u8` values are `Nat`; where a claim needs the byte range it is imposed
  through `isByteList`.  The `u32` node weights are `Nat`; no claim exercises
  weight overflow.
* `bitvec` bit buffers (`BitVec<u8, Lsb0>` / `BitSlice`) are `List Bool` in
  least-significant-bit-first order, with explicit packing (`bitsToBytes`) and
  unpacking (`bytesToBits`).
* Fallible code returns `Option`; a `none` at the outermost level of `encode`,
  `decode`, `Node.deserialize` etc. models a Rust panic (`assert!`, `unwrap`,
  out-of-range `split_at`), while parse failures that the source reports as
  `Option::None` are the inner `Option` of `Node.deserialize`.
* The frequency `HashMap` of `tree_for_message` has unspecified iteration
  order in the source; it is modelled deterministically in first-occurrence
  order (`distinctList`).  No theorem below depends on that choice.
-/

namespace Huffnpuff

deriving instance DecidableEq for Except

/-- The two error kinds of the codec (`Error` in src/huffman.rs). -/
inductive Error
  | NoData
  | FailedToDecodeHuffmanTree
  deriving DecidableEq, Repr

/-- The value stored at a Huffman tree leaf (`HuffmanValue` in src/huffman.rs). -/
inductive HuffmanValue
  | symbol (s : Nat)
  | endOfMessage
  deriving DecidableEq, Repr

/-- A Huffman tree node (`Node` in src/huffman.rs). -/
inductive Node
  | inner (count : Nat) (left : Node) (right : Node)
  | leaf (count : Nat) (value : HuffmanValue)
  deriving DecidableEq, Repr

/-- `Node::count`. -/
def Node.count : Node → Nat
  | .inner c _ _ => c
  | .leaf c _ => c

/-- `Node::join`. -/
def Node.join (left right : Node) : Node :=
  .inner (left.count + right.count) left right

/-- `matches!(node, Node::Leaf { .. })`. -/
def Node.isLeafNode : Node → Bool
  | .leaf _ _ => true
  | .inner _ _ _ => false

/-- `matches!(node, Node::Inner { .. })`. -/
def Node.isInner : Node → Bool
  | .inner _ _ _ => true
  | .leaf _ _ => false

/-- Number of leaves of a tree. -/
def Node.numLeaves : Node → Nat
  | .leaf _ _ => 1
  | .inner _ l r => l.numLeaves + r.numLeaves

/-- Whether some leaf holds `EndOfMessage`. -/
def Node.hasEom : Node → Bool
  | .leaf _ .endOfMessage => true
  | .leaf _ (.symbol _) => false
  | .inner _ l r => l.hasEom || r.hasEom

/-- Number of leaves holding `EndOfMessage`. -/
def Node.countEom : Node → Nat
  | .leaf _ .endOfMessage => 1
  | .leaf _ (.symbol _) => 0
  | .inner _ l r => l.countEom + r.countEom

/-- The multiset of (weight, value) pairs at the leaves. -/
def Node.leafPairs : Node → Multiset (Nat × HuffmanValue)
  | .leaf c v => {(c, v)}
  | .inner _ l r => l.leafPairs + r.leafPairs

/-- Shape copy with every leaf replaced by the placeholder
`Leaf { count: 0, value: Symbol(0) }` built by the structural pass of
`Node::deserialize`, and all inner weights zeroed. -/
def Node.skeleton : Node → Node
  | .leaf _ _ => .leaf 0 (.symbol 0)
  | .inner _ l r => .inner 0 l.skeleton r.skeleton

/-- Same shape and leaf values, every weight reset to zero: the tree that
`Node::deserialize` rebuilds from `Node::serialize` output. -/
def Node.resetCounts : Node → Node
  | .leaf _ v => .leaf 0 v
  | .inner _ l r => .inner 0 l.resetCounts r.resetCounts

/-- Every symbol leaf holds a byte-sized value. -/
def Node.validSymbols : Node → Bool
  | .leaf _ (.symbol s) => decide (s < 256)
  | .leaf _ .endOfMessage => true
  | .inner _ l r => l.validSymbols && r.validSymbols

/-- The `w` low bits of `n`, least significant bit first (`Lsb0` order). -/
def natToBitsLsb : Nat → Nat → List Bool
  | 0, _ => []
  | w + 1, n => decide (n % 2 = 1) :: natToBitsLsb w (n / 2)

/-- `BitField::load` on an `Lsb0` slice: read back a bit list LSB-first. -/
def loadLsb (bits : List Bool) : Nat :=
  bits.foldr (fun b acc => 2 * acc + (if b then 1 else 0)) 0

/-- `u8::view_bits::<Lsb0>()`. -/
def byteToBits (b : Nat) : List Bool := natToBitsLsb 8 b

/-- `<[u8]>::view_bits::<Lsb0>()`. -/
def bytesToBits (bytes : List Nat) : List Bool := bytes.flatMap byteToBits

/-- `BitVec::into_vec` after `set_uninitialized(false)`: pack the bits
LSB-first into bytes, zero-filling the incomplete final byte. -/
def bitsToBytes (bits : List Bool) : List Nat :=
  if h : bits.isEmpty then []
  else loadLsb (bits.take 8) :: bitsToBytes (bits.drop 8)
termination_by bits.length
decreasing_by
  cases bits with
  | nil => simp at h
  | cons b rest => simp [List.length_drop]; omega

/-- Every entry fits in a byte (the Rust inputs are `&[u8]`). -/
def isByteList (bytes : List Nat) : Bool :=
  bytes.all (fun b => decide (b < 256))

/-- Structural bits emitted by the `traverse` of `Node::serialize`: preorder,
`true` per leaf, `false` per inner node. -/
def Node.serStruct : Node → List Bool
  | .leaf _ _ => [true]
  | .inner _ l r => false :: (l.serStruct ++ r.serStruct)

/-- The leaf values collected by the `traverse` of `Node::serialize`, in the
same preorder. -/
def Node.serValues : Node → List HuffmanValue
  | .leaf _ v => [v]
  | .inner _ l r => l.serValues ++ r.serValues

/-- The 9-bit extended per-leaf group of `Node::serialize`: flag bit, then the
8 payload bits (zeros for EOM, the symbol value LSB-first otherwise). -/
def encodeLeafValue : HuffmanValue → List Bool
  | .endOfMessage => true :: natToBitsLsb 8 0
  | .symbol s => false :: natToBitsLsb 8 s

/-- `Node::serialize`: the structural preorder bits followed by one 9-bit
group per leaf in the same preorder. -/
def Node.serialize (t : Node) : List Bool :=
  t.serStruct ++ t.serValues.flatMap encodeLeafValue

/-- The recursive `helper` of `Node::deserialize`, parsing the structural
prefix and counting leaves.  The fuel argument only serves termination;
`desHelperR` supplies `bits.length`, which is never exhausted because every
recursive call consumes at least one bit first. -/
def desHelperF : Nat → List Bool → Nat → Option (Node × List Bool × Nat)
  | _, [], _ => none
  | 0, _ :: _, _ => none
  | fuel + 1, b :: rest, leafCount =>
    if b then some (.leaf 0 (.symbol 0), rest, leafCount + 1)
    else
      match desHelperF fuel rest leafCount with
      | none => none
      | some (l, rest1, lc1) =>
        match desHelperF fuel rest1 lc1 with
        | none => none
        | some (r, rest2, lc2) => some (.inner 0 l r, rest2, lc2)

/-- The `helper` of `Node::deserialize` at adequate fuel. -/
def desHelperR (bits : List Bool) (leafCount : Nat) : Option (Node × List Bool × Nat) :=
  desHelperF bits.length bits leafCount

/-- The value-filling `traverse` of `Node::deserialize`.  The result is the
updated tree, the remaining bits and the `seen_eom` flag; `none` models the
panic of `split_at(SYMBOL_SIZE)` when fewer than 9 bits remain at a leaf. -/
def desTraverse : Node → List Bool → Bool → Option (Node × List Bool × Bool)
  | .leaf c _, bits, seenEom =>
    if 9 ≤ bits.length then
      match bits with
      | isEom :: valueBits =>
        if isEom then some (.leaf c .endOfMessage, valueBits.drop 8, true)
        else some (.leaf c (.symbol (loadLsb (valueBits.take 8))), valueBits.drop 8, seenEom)
      | [] => none
    else none
  | .inner c l r, bits, seenEom =>
    match desTraverse l bits seenEom with
    | none => none
    | some (l2, rest, se1) =>
      match desTraverse r rest se1 with
      | none => none
      | some (r2, rest2, se2) => some (.inner c l2 r2, rest2, se2)

/-- `Node::deserialize`.  The outer `none` models a panic inside `traverse`;
`some none` is the `Option::None` parse failure that `decode` maps to
`FailedToDecodeHuffmanTree`. -/
def Node.deserialize (bits : List Bool) : Option (Option (Node × List Bool)) :=
  match desHelperR bits 0 with
  | none => some none
  | some (tree, remaining, leafCount) =>
    if remaining.length < leafCount * 9 then some none
    else
      match desTraverse tree remaining false with
      | none => none
      | some (tree2, remaining2, seenEom) =>
        if seenEom then
          if tree2.isLeafNode then some none
          else some (some (tree2, remaining2))
        else some none

/-- The codebook-building `traverse` inside `Node::encode`: every leaf value
paired with its root-to-leaf path (`false` = left, `true` = right), in
preorder visit order. -/
def Node.codeEntries : Node → List Bool → List (HuffmanValue × List Bool)
  | .leaf _ v, path => [(v, path)]
  | .inner _ l r, path =>
    l.codeEntries (path ++ [false]) ++ r.codeEntries (path ++ [true])

/-- Lookup of the path recorded last for a value: `HashMap::insert` overwrites,
so the last insertion with a given key wins. -/
def lookupLast : List (HuffmanValue × List Bool) → HuffmanValue → Option (List Bool)
  | [], _ => none
  | (w, p) :: rest, v =>
    match lookupLast rest v with
    | some q => some q
    | none => if w = v then some p else none

/-- The `for byte in bytes` loop of `Node::encode`: append each byte's
codeword; `none` models the `panic!("missing value in codebook")`. -/
def encodeLoop (entries : List (HuffmanValue × List Bool)) : List Nat → Option (List Bool)
  | [] => some []
  | b :: rest =>
    match lookupLast entries (.symbol b) with
    | none => none
    | some code =>
      match encodeLoop entries rest with
      | none => none
      | some tailBits => some (code ++ tailBits)

/-- `Node::encode`: the concatenated codewords of the message bytes followed
by the EOM codeword.  `none` models the two panics (missing codebook entry,
missing EOM path). -/
def Node.encode (t : Node) (bytes : List Nat) : Option (List Bool) :=
  match encodeLoop (t.codeEntries []) bytes with
  | none => none
  | some msgBits =>
    match lookupLast (t.codeEntries []) .endOfMessage with
    | none => none
    | some eomPath => some (msgBits ++ eomPath)

/-- The bit-consuming loop of `Node::decode`: descend left on `false`, right
on `true`; at an EOM leaf return the accumulator, at a symbol leaf record the
byte and restart from the root; when the bits run out return the accumulator.
`none` models the `panic!` on finding a leaf cursor at the top of the loop. -/
def Node.decodeGo (root : Node) : Node → List Bool → List Nat → Option (List Nat)
  | _, [], acc => some acc
  | .leaf _ _, _ :: _, _ => none
  | .inner _ l r, bit :: rest, acc =>
    match if bit then r else l with
    | .leaf _ .endOfMessage => some acc
    | .leaf _ (.symbol s) => Node.decodeGo root root rest (acc ++ [s])
    | .inner c l2 r2 => Node.decodeGo root (.inner c l2 r2) rest acc

/-- `Node::decode`; `none` models the failure of the
`assert!(matches!(cursor, Node::Inner { .. }))` on a single-leaf tree. -/
def Node.decode (t : Node) (bits : List Bool) : Option (List Nat) :=
  match t with
  | .leaf _ _ => none
  | .inner _ _ _ => Node.decodeGo t t bits []

/-- The walk of `Node::decode` reaches an `EndOfMessage` leaf exactly when the
last input bit is consumed.  This mirrors `Node.decodeGo` step for step and
formalises the hypothesis of the padding-safety claim. -/
def Node.endsAtEom (root : Node) : Node → List Bool → Bool
  | _, [] => false
  | .leaf _ _, _ :: _ => false
  | .inner _ l r, bit :: rest =>
    match if bit then r else l with
    | .leaf _ .endOfMessage => rest.isEmpty
    | .leaf _ (.symbol _) => Node.endsAtEom root root rest
    | .inner c l2 r2 => Node.endsAtEom root (.inner c l2 r2) rest

/-- The distinct byte values of the input in first-occurrence order.  This is
the deterministic model of the frequency `HashMap` key set; the source's
iteration order is unspecified and no theorem depends on this choice. -/
def distinctList : List Nat → List Nat
  | [] => []
  | b :: rest => b :: (distinctList rest).filter (fun x => decide (x ≠ b))

/-- The frequency table of `tree_for_message`: each distinct byte value with
its occurrence count. -/
def frequencies (bytes : List Nat) : List (Nat × Nat) :=
  (distinctList bytes).map (fun v => (v, bytes.count v))

/-- Stable insertion into a weight-sorted list. -/
def insertByCount (n : Node) : List Node → List Node
  | [] => [n]
  | m :: ms => if n.count ≤ m.count then n :: m :: ms else m :: insertByCount n ms

/-- A stable sort by weight, modelling `Vec::sort_by_key(|node| node.count())`. -/
def sortByCount (nodes : List Node) : List Node :=
  nodes.foldr insertByCount []

/-- The `while nodes.len() > 1` greedy merge loop of `tree_for_message`: sort
by weight, remove the two lightest, push their join at the back.  The fuel
only serves termination; `mergeLoop` supplies `nodes.length`, which is never
exhausted because each iteration shortens the list by one. -/
def mergeLoopF : Nat → List Node → Option Node
  | _, [] => none
  | _, [n] => some n
  | 0, _ :: _ :: _ => none
  | fuel + 1, n1 :: n2 :: rest =>
    match sortByCount (n1 :: n2 :: rest) with
    | a :: b :: rest2 => mergeLoopF fuel (rest2 ++ [Node.join a b])
    | _ => none

/-- The merge loop plus the final `pop().unwrap()`; `none` models that
`unwrap` panicking on an empty list. -/
def mergeLoop (nodes : List Node) : Option Node :=
  mergeLoopF nodes.length nodes

/-- `Node::tree_for_message`.  `none` models the
`assert!(!bytes.is_empty())` panic. -/
def Node.tree_for_message (bytes : List Nat) : Option Node :=
  if bytes.isEmpty then none
  else
    mergeLoop
      ((frequencies bytes).map (fun p => .leaf p.2 (.symbol p.1)) ++
        [.leaf 0 .endOfMessage])

/-- Top-level `encode` in src/huffman.rs.  `none` models a panic. -/
def encode (bytes : List Nat) : Option (Except Error (List Nat)) :=
  if bytes.isEmpty then some (.error .NoData)
  else
    match Node.tree_for_message bytes with
    | none => none
    | some tree =>
      match tree.encode bytes with
      | none => none
      | some message => some (.ok (bitsToBytes (tree.serialize ++ message)))

/-- Top-level `decode` in src/huffman.rs.  `none` models a panic. -/
def decode (bytes : List Nat) : Option (Except Error (List Nat)) :=
  if bytes.isEmpty then some (.error .NoData)
  else
    match Node.deserialize (bytesToBits bytes) with
    | none => none
    | some none => some (.error .FailedToDecodeHuffmanTree)
    | some (some (tree, bits)) => (tree.decode bits).map .ok

/-! ### Bit packing lemmas -/

theorem length_natToBitsLsb (w n : Nat) : (natToBitsLsb w n).length = w := by
  induction w generalizing n with
  | zero => rfl
  | succ w ih => simp [natToBitsLsb, ih]

theorem loadLsb_nil : loadLsb [] = 0 := rfl

theorem loadLsb_cons (b : Bool) (l : List Bool) :
    loadLsb (b :: l) = 2 * loadLsb l + (if b then 1 else 0) := rfl

theorem loadLsb_natToBitsLsb (w n : Nat) : loadLsb (natToBitsLsb w n) = n % 2 ^ w := by
  induction w generalizing n with
  | zero => simp [natToBitsLsb, loadLsb_nil, Nat.mod_one]
  | succ w ih =>
    rw [natToBitsLsb, loadLsb_cons, ih]
    have hm : 0 < 2 ^ w := pow_pos (by omega) w
    have hk : n / 2 = 2 ^ w * (n / 2 / 2 ^ w) + n / 2 % 2 ^ w := (Nat.div_add_mod _ _).symm
    have hrlt : n / 2 % 2 ^ w < 2 ^ w := Nat.mod_lt _ hm
    generalize hqg : n / 2 / 2 ^ w = q at hk
    generalize hrg : n / 2 % 2 ^ w = r at hk hrlt ⊢
    rw [pow_succ]
    rcases Nat.even_or_odd n with h | h
    · rcases h with ⟨k, hk2⟩
      have hn2 : n = 2 * (2 ^ w * q + r) := by omega
      have h1 : ¬n % 2 = 1 := by omega
      simp only [h1, decide_eq_false_iff_not, ne_eq, not_false_eq_true, if_neg,
        decide_eq_true_eq, if_false]
      rw [hn2, show 2 * (2 ^ w * q + r) = 2 * r + 2 ^ w * 2 * q by ring,
        Nat.add_mul_mod_self_left, Nat.mod_eq_of_lt (by omega)]
      omega
    · rcases h with ⟨k, hk2⟩
      have hn2 : n = 2 * (2 ^ w * q + r) + 1 := by omega
      have h1 : n % 2 = 1 := by omega
      simp only [h1, decide_eq_true_eq, if_pos]
      rw [hn2, show 2 * (2 ^ w * q + r) + 1 = (2 * r + 1) + 2 ^ w * 2 * q by ring,
        Nat.add_mul_mod_self_left, Nat.mod_eq_of_lt (by omega)]

theorem loadLsb_lt (l : List Bool) : loadLsb l < 2 ^ l.length := by
  induction l with
  | nil => simp [loadLsb_nil]
  | cons b rest ih =>
    rw [loadLsb_cons]
    simp only [List.length_cons, pow_succ]
    cases b <;> simp <;> omega

theorem natToBitsLsb_loadLsb (l : List Bool) (w : Nat) (h : l.length ≤ w) :
    natToBitsLsb w (loadLsb l) = l ++ List.replicate (w - l.length) false := by
  induction l generalizing w with
  | nil =>
    simp only [loadLsb_nil, List.nil_append, List.length_nil, Nat.sub_zero]
    induction w with
    | zero => rfl
    | succ w ih => simp [natToBitsLsb, ih, List.replicate_succ]
  | cons b rest ih =>
    cases w with
    | zero => simp at h
    | succ w =>
      rw [loadLsb_cons, natToBitsLsb]
      have h2 : rest.length ≤ w := by simpa using h
      have hb : (2 * loadLsb rest + (if b then 1 else 0)) % 2 = if b then 1 else 0 := by
        cases b <;> simp <;> omega
      have hd : (2 * loadLsb rest + (if b then 1 else 0)) / 2 = loadLsb rest := by
        cases b <;> simp <;> omega
      rw [hb, hd, ih w h2]
      cases b <;> simp

theorem byteToBits_loadLsb (l : List Bool) (h : l.length ≤ 8) :
    byteToBits (loadLsb l) = l ++ List.replicate (8 - l.length) false :=
  natToBitsLsb_loadLsb l 8 h

theorem bitsToBytes_nil : bitsToBytes [] = [] := by
  rw [bitsToBytes]
  rfl

theorem bitsToBytes_ne_nil (bits : List Bool) (h : bits ≠ []) : bitsToBytes bits ≠ [] := by
  rw [bitsToBytes]
  simp [h]

theorem bytesToBits_bitsToBytes (bits : List Bool) :
    ∃ k, bytesToBits (bitsToBytes bits) = bits ++ List.replicate k false := by
  have main : ∀ (n : Nat) (bs : List Bool), bs.length ≤ n →
      ∃ k, bytesToBits (bitsToBytes bs) = bs ++ List.replicate k false := by
    intro n
    induction n with
    | zero =>
      intro bs hb
      have : bs = [] := by
        cases bs with
        | nil => rfl
        | cons x xs => simp at hb
      subst this
      exact ⟨0, by simp [bitsToBytes_nil, bytesToBits]⟩
    | succ n ih =>
      intro bs hb
      rcases Decidable.em (bs = []) with h | h
      · subst h
        exact ⟨0, by simp [bitsToBytes_nil, bytesToBits]⟩
      · rw [bitsToBytes]
        simp only [List.isEmpty_eq_true, h, dite_false]
        rcases Decidable.em (bs.length ≤ 8) with h8 | h8
        · have hdrop : bs.drop 8 = [] := by
            apply List.eq_nil_of_length_eq_zero
            simp [List.length_drop]
            omega
          have htake : bs.take 8 = bs := List.take_of_length_le h8
          refine ⟨8 - bs.length, ?_⟩
          rw [hdrop, bitsToBytes_nil]
          simp only [bytesToBits, List.flatMap_cons, List.flatMap_nil, List.append_nil]
          rw [htake, byteToBits_loadLsb bs h8]
        · have hne : bs.length ≠ 0 := by
            intro hz
            exact h (List.eq_nil_of_length_eq_zero hz)
          have htlen : (bs.take 8).length = 8 := by
            simp [List.length_take]
            omega
          have hdlen : (bs.drop 8).length ≤ n := by
            simp [List.length_drop]
            omega
          rcases ih (bs.drop 8) hdlen with ⟨k, hk⟩
          refine ⟨k, ?_⟩
          simp only [bytesToBits, List.flatMap_cons] at hk ⊢
          rw [byteToBits_loadLsb (bs.take 8) (le_of_eq htlen), htlen]
          simp only [Nat.sub_self, List.replicate_zero, List.append_nil]
          rw [hk, ← List.append_assoc, List.take_append_drop]
  exact main bits.length bits le_rfl

/-! ### Tree shape lemmas -/

theorem numLeaves_pos (t : Node) : 1 ≤ t.numLeaves := by
  induction t with
  | inner c l r ihl ihr => simp [Node.numLeaves]; omega
  | leaf c v => simp [Node.numLeaves]

theorem length_serStruct (t : Node) : t.serStruct.length = 2 * t.numLeaves - 1 := by
  induction t with
  | inner c l r ihl ihr =>
    have hl := numLeaves_pos l
    have hr := numLeaves_pos r
    simp [Node.serStruct, Node.numLeaves, ihl, ihr]
    omega
  | leaf c v => rfl

theorem length_serValues (t : Node) : t.serValues.length = t.numLeaves := by
  induction t with
  | inner c l r ihl ihr => simp [Node.serValues, Node.numLeaves, ihl, ihr]
  | leaf c v => rfl

theorem length_encodeLeafValue (v : HuffmanValue) : (encodeLeafValue v).length = 9 := by
  cases v <;> simp [encodeLeafValue, length_natToBitsLsb]

theorem length_valueBlock (t : Node) :
    (t.serValues.flatMap encodeLeafValue).length = 9 * t.numLeaves := by
  induction t with
  | inner c l r ihl ihr =>
    rw [show (Node.inner c l r).serValues = l.serValues ++ r.serValues from rfl,
      List.flatMap_append, List.length_append, ihl, ihr,
      show (Node.inner c l r).numLeaves = l.numLeaves + r.numLeaves from rfl]
    ring
  | leaf c v =>
    rw [show (Node.leaf c v).serValues = [v] from rfl]
    simp [length_encodeLeafValue, Node.numLeaves]

theorem length_serialize (t : Node) :
    t.serialize.length = (2 * t.numLeaves - 1) + 9 * t.numLeaves := by
  rw [Node.serialize, List.length_append, length_serStruct, length_valueBlock]

theorem serStruct_ne_nil (t : Node) : t.serStruct ≠ [] := by
  cases t <;> simp [Node.serStruct]

theorem serialize_ne_nil (t : Node) : t.serialize ≠ [] := by
  simp only [Node.serialize]
  cases t <;> simp [Node.serStruct]

theorem isInner_resetCounts (t : Node) : t.resetCounts.isInner = t.isInner := by
  cases t <;> rfl

theorem isLeafNode_eq_not_isInner (t : Node) : t.isLeafNode = !t.isInner := by
  cases t <;> rfl

theorem isInner_iff_exists (t : Node) :
    t.isInner = true ↔ ∃ c l r, t = .inner c l r := by
  cases t with
  | inner c l r => simp [Node.isInner]
  | leaf c v => simp [Node.isInner]

theorem numLeaves_skeleton (t : Node) : t.skeleton.numLeaves = t.numLeaves := by
  induction t with
  | inner c l r ihl ihr => simp [Node.skeleton, Node.numLeaves, ihl, ihr]
  | leaf c v => rfl

theorem codeEntries_resetCounts (t : Node) (path : List Bool) :
    t.resetCounts.codeEntries path = t.codeEntries path := by
  induction t generalizing path with
  | inner c l r ihl ihr => simp [Node.resetCounts, Node.codeEntries, ihl, ihr]
  | leaf c v => rfl

/-! ### Deserializer lemmas -/

theorem desHelperF_shrink : ∀ (fuel : Nat) (bits : List Bool) (lc : Nat) (t : Node)
    (rest : List Bool) (lc' : Nat), desHelperF fuel bits lc = some (t, rest, lc') →
    rest.length < bits.length ∧ lc' = lc + t.numLeaves := by
  intro fuel
  induction fuel with
  | zero =>
    intro bits lc t rest lc' h
    cases bits <;> simp [desHelperF] at h
  | succ fuel ih =>
    intro bits lc t rest lc' h
    cases bits with
    | nil => simp [desHelperF] at h
    | cons b rest0 =>
      rw [desHelperF] at h
      cases b with
      | true =>
        rw [if_pos rfl] at h
        simp only [Option.some.injEq, Prod.mk.injEq] at h
        obtain ⟨ht, hrest, hlc⟩ := h
        subst ht hrest hlc
        simp [Node.numLeaves]
      | false =>
        rw [if_neg (by simp)] at h
        split at h
        · exact absurd h (by simp)
        · rename_i l rest1 lc1 h1
          split at h
          · exact absurd h (by simp)
          · rename_i r rest2 lc2 h2
            simp only [Option.some.injEq, Prod.mk.injEq] at h
            obtain ⟨ht, hrest, hlc⟩ := h
            subst ht hrest hlc
            obtain ⟨hlen1, hcount1⟩ := ih rest0 lc l rest1 lc1 h1
            obtain ⟨hlen2, hcount2⟩ := ih rest1 lc1 r rest2 lc2 h2
            constructor
            · simp only [List.length_cons]
              omega
            · simp only [Node.numLeaves]
              omega

theorem desHelperF_serStruct : ∀ (t : Node) (fuel : Nat) (r : List Bool) (lc : Nat),
    (t.serStruct ++ r).length ≤ fuel →
    desHelperF fuel (t.serStruct ++ r) lc = some (t.skeleton, r, lc + t.numLeaves) := by
  intro t
  induction t with
  | leaf c v =>
    intro fuel r lc hf
    cases fuel with
    | zero => simp [Node.serStruct] at hf
    | succ fuel =>
      simp [Node.serStruct, desHelperF, Node.skeleton, Node.numLeaves]
  | inner c l r ihl ihr =>
    intro fuel r0 lc hf
    have hsl : 1 ≤ l.serStruct.length := by
      cases hsl : l.serStruct with
      | nil => exact absurd hsl (serStruct_ne_nil l)
      | cons x xs => simp
    cases fuel with
    | zero => simp [Node.serStruct] at hf
    | succ fuel =>
      have hshape : (Node.inner c l r).serStruct ++ r0 =
          false :: (l.serStruct ++ (r.serStruct ++ r0)) := by
        simp [Node.serStruct]
      have hf1 : (l.serStruct ++ (r.serStruct ++ r0)).length ≤ fuel := by
        rw [hshape] at hf
        simp only [List.length_cons] at hf
        omega
      have hf2 : (r.serStruct ++ r0).length ≤ fuel := by
        simp only [List.length_append] at hf1 ⊢
        omega
      rw [hshape, desHelperF]
      simp only [Bool.false_eq_true, if_false, ihl fuel (r.serStruct ++ r0) lc hf1,
        ihr fuel r0 (lc + l.numLeaves) hf2]
      simp [Node.skeleton, Node.numLeaves]
      omega

theorem desHelperR_serStruct (t : Node) (r : List Bool) (lc : Nat) :
    desHelperR (t.serStruct ++ r) lc = some (t.skeleton, r, lc + t.numLeaves) :=
  desHelperF_serStruct t (t.serStruct ++ r).length r lc le_rfl

theorem desTraverse_valueBlock : ∀ (t : Node) (r : List Bool) (se : Bool),
    t.validSymbols = true →
    desTraverse t.skeleton (t.serValues.flatMap encodeLeafValue ++ r) se =
      some (t.resetCounts, r, se || t.hasEom) := by
  intro t
  induction t with
  | leaf c v =>
    intro r se hv
    cases v with
    | endOfMessage =>
      have hshape : (Node.leaf c .endOfMessage).serValues.flatMap encodeLeafValue ++ r =
          true :: (natToBitsLsb 8 0 ++ r) := by
        simp [Node.serValues, encodeLeafValue]
      rw [hshape]
      rw [show (Node.leaf c HuffmanValue.endOfMessage).skeleton =
        Node.leaf 0 (.symbol 0) from rfl, desTraverse]
      have hlen : 9 ≤ (true :: (natToBitsLsb 8 0 ++ r)).length := by
        simp [length_natToBitsLsb]
      rw [if_pos hlen]
      simp only [if_pos]
      have hdrop : (natToBitsLsb 8 0 ++ r).drop 8 = r := by
        rw [List.drop_append_of_le_length (by simp [length_natToBitsLsb])]
        simp [length_natToBitsLsb]
      rw [hdrop]
      simp [Node.resetCounts, Node.hasEom]
    | symbol s =>
      have hs : s < 256 := by
        have h2 := hv
        rw [Node.validSymbols] at h2
        simpa using h2
      have hshape : (Node.leaf c (HuffmanValue.symbol s)).serValues.flatMap encodeLeafValue
          ++ r = false :: (natToBitsLsb 8 s ++ r) := by
        simp [Node.serValues, encodeLeafValue]
      rw [hshape]
      rw [show (Node.leaf c (HuffmanValue.symbol s)).skeleton =
        Node.leaf 0 (.symbol 0) from rfl, desTraverse]
      have hlen : 9 ≤ (false :: (natToBitsLsb 8 s ++ r)).length := by
        simp [length_natToBitsLsb]
      rw [if_pos hlen]
      simp only [Bool.false_eq_true, if_false]
      have htake : (natToBitsLsb 8 s ++ r).take 8 = natToBitsLsb 8 s := by
        rw [List.take_append_of_le_length (by rw [length_natToBitsLsb]),
          List.take_of_length_le (by rw [length_natToBitsLsb])]
      have hdrop : (natToBitsLsb 8 s ++ r).drop 8 = r := by
        rw [List.drop_append_of_le_length (by rw [length_natToBitsLsb]),
          List.drop_eq_nil_of_le (by rw [length_natToBitsLsb])]
        simp
      rw [htake, hdrop, loadLsb_natToBitsLsb]
      rw [Nat.mod_eq_of_lt (by norm_num; omega)]
      simp [Node.resetCounts, Node.hasEom]
  | inner c l r ihl ihr =>
    intro r0 se hv
    have hvl : l.validSymbols = true ∧ r.validSymbols = true := by
      have := hv
      rw [Node.validSymbols] at this
      exact ⟨(Bool.and_eq_true _ _ |>.mp this).1, (Bool.and_eq_true _ _ |>.mp this).2⟩
    have hshape : (Node.inner c l r).serValues.flatMap encodeLeafValue ++ r0 =
        l.serValues.flatMap encodeLeafValue ++
          (r.serValues.flatMap encodeLeafValue ++ r0) := by
      simp [Node.serValues, List.flatMap_append]
    rw [hshape]
    rw [show (Node.inner c l r).skeleton = Node.inner 0 l.skeleton r.skeleton from rfl,
      desTraverse]
    simp only [ihl _ se hvl.1, ihr _ (se || l.hasEom) hvl.2]
    simp [Node.resetCounts, Node.hasEom, Bool.or_assoc]

theorem desTraverse_total : ∀ (t : Node) (bits : List Bool) (se : Bool),
    9 * t.numLeaves ≤ bits.length →
    ∃ t2 rest se2, desTraverse t bits se = some (t2, rest, se2) ∧
      rest.length = bits.length - 9 * t.numLeaves := by
  intro t
  induction t with
  | leaf c v =>
    intro bits se h
    have h9 : 9 ≤ bits.length := by
      simpa [Node.numLeaves] using h
    cases bits with
    | nil => simp at h9
    | cons b rest =>
      rw [desTraverse, if_pos h9]
      cases b with
      | true =>
        refine ⟨.leaf c .endOfMessage, rest.drop 8, true, by simp, ?_⟩
        simp only [List.length_drop, List.length_cons, Node.numLeaves]
        simp only [List.length_cons] at h9
        omega
      | false =>
        refine ⟨.leaf c (.symbol (loadLsb (rest.take 8))), rest.drop 8, se, by simp, ?_⟩
        simp only [List.length_drop, List.length_cons, Node.numLeaves]
        simp only [List.length_cons] at h9
        omega
  | inner c l r ihl ihr =>
    intro bits se h
    rw [show (Node.inner c l r).numLeaves = l.numLeaves + r.numLeaves from rfl] at h
    have hl : 9 * l.numLeaves ≤ bits.length := by omega
    obtain ⟨l2, rest1, se1, h1, hlen1⟩ := ihl bits se hl
    have hr : 9 * r.numLeaves ≤ rest1.length := by omega
    obtain ⟨r2, rest2, se2, h2, hlen2⟩ := ihr rest1 se1 hr
    refine ⟨.inner c l2 r2, rest2, se2, ?_, ?_⟩
    · rw [desTraverse]
      simp only [h1, h2]
    · rw [hlen2, hlen1, show (Node.inner c l r).numLeaves = l.numLeaves + r.numLeaves from rfl]
      omega

theorem deserialize_serialize (t : Node) (hEom : t.hasEom = true)
    (hVal : t.validSymbols = true) (hInner : t.isInner = true) (r : List Bool) :
    Node.deserialize (t.serialize ++ r) = some (some (t.resetCounts, r)) := by
  have hshape : t.serialize ++ r =
      t.serStruct ++ (t.serValues.flatMap encodeLeafValue ++ r) := by
    simp [Node.serialize]
  rw [Node.deserialize, hshape, desHelperR_serStruct]
  simp only []
  have hguard : ¬((t.serValues.flatMap encodeLeafValue ++ r).length < (0 + t.numLeaves) * 9) := by
    simp only [List.length_append, length_valueBlock, Nat.zero_add]
    omega
  rw [if_neg hguard]
  rw [desTraverse_valueBlock t r false hVal]
  simp only [Bool.false_or, hEom, if_pos]
  have hleaf : t.resetCounts.isLeafNode = false := by
    rw [isLeafNode_eq_not_isInner, isInner_resetCounts, hInner]
    rfl
  rw [hleaf]
  rfl

theorem deserialize_isSome (bits : List Bool) : (Node.deserialize bits).isSome = true := by
  rw [Node.deserialize]
  cases hh : desHelperR bits 0 with
  | none => rfl
  | some v =>
    obtain ⟨tree, remaining, leafCount⟩ := v
    simp only []
    rcases Decidable.em (remaining.length < leafCount * 9) with hg | hg
    · rw [if_pos hg]
      rfl
    · rw [if_neg hg]
      have hlc : leafCount = 0 + tree.numLeaves := (desHelperF_shrink _ _ _ _ _ _ hh).2
      have hle : 9 * tree.numLeaves ≤ remaining.length := by omega
      obtain ⟨t2, rest, se2, ht, _⟩ := desTraverse_total tree remaining false hle
      rw [ht]
      cases se2 with
      | true =>
        cases h2 : t2.isLeafNode <;> simp [h2]
      | false => simp

theorem deserialize_ok_isInner (bits : List Bool) (t : Node) (rest : List Bool)
    (h : Node.deserialize bits = some (some (t, rest))) : t.isInner = true := by
  rw [Node.deserialize] at h
  cases hh : desHelperR bits 0 with
  | none => rw [hh] at h; simp at h
  | some v =>
    obtain ⟨tree, remaining, leafCount⟩ := v
    rw [hh] at h
    simp only [] at h
    rcases Decidable.em (remaining.length < leafCount * 9) with hg | hg
    · rw [if_pos hg] at h
      simp at h
    · rw [if_neg hg] at h
      cases ht : desTraverse tree remaining false with
      | none => rw [ht] at h; simp at h
      | some v2 =>
        obtain ⟨t2, rest2, se2⟩ := v2
        rw [ht] at h
        simp only [] at h
        cases se2 with
        | false => simp at h
        | true =>
          rw [if_pos rfl] at h
          cases h2 : t2.isLeafNode with
          | true => rw [h2] at h; simp at h
          | false =>
            rw [h2] at h
            rw [if_neg (by simp)] at h
            simp only [Option.some.injEq, Prod.mk.injEq] at h
            obtain ⟨h3, h4⟩ := h
            subst h3
            rw [isLeafNode_eq_not_isInner] at h2
            simpa using h2

/-! ### Decoder walk lemmas -/

theorem decodeGo_acc_append : ∀ (bits : List Bool) (root cursor : Node) (acc : List Nat),
    root.isInner = true → cursor.isInner = true →
    ∃ tail, Node.decodeGo root cursor bits acc = some (acc ++ tail) := by
  intro bits
  induction bits with
  | nil =>
    intro root cursor acc hroot hcursor
    exact ⟨[], by simp [Node.decodeGo]⟩
  | cons b rest ih =>
    intro root cursor acc hroot hcursor
    obtain ⟨c, l, r, rfl⟩ := (isInner_iff_exists cursor).mp hcursor
    rw [Node.decodeGo]
    cases hn : (if b then r else l) with
    | leaf c2 v =>
      cases v with
      | endOfMessage => exact ⟨[], by simp⟩
      | symbol s =>
        obtain ⟨tail, htail⟩ := ih root root (acc ++ [s]) hroot hroot
        refine ⟨s :: tail, ?_⟩
        simp only []
        rw [htail]
        simp
    | inner c2 l2 r2 =>
      simp only []
      exact ih root (.inner c2 l2 r2) acc hroot rfl

theorem decodeGo_extend : ∀ (p q : List Bool) (root cursor : Node) (acc : List Nat),
    root.isInner = true → cursor.isInner = true →
    ∃ out tail, Node.decodeGo root cursor p acc = some out ∧
      Node.decodeGo root cursor (p ++ q) acc = some (out ++ tail) := by
  intro p
  induction p with
  | nil =>
    intro q root cursor acc hroot hcursor
    obtain ⟨tail, htail⟩ := decodeGo_acc_append q root cursor acc hroot hcursor
    exact ⟨acc, tail, by simp [Node.decodeGo], by simpa using htail⟩
  | cons b rest ih =>
    intro q root cursor acc hroot hcursor
    obtain ⟨c, l, r, rfl⟩ := (isInner_iff_exists cursor).mp hcursor
    rw [show ((b :: rest) ++ q) = b :: (rest ++ q) from rfl]
    rw [Node.decodeGo, Node.decodeGo]
    cases hn : (if b then r else l) with
    | leaf c2 v =>
      cases v with
      | endOfMessage => exact ⟨acc, [], rfl, by simp⟩
      | symbol s =>
        simp only []
        exact ih q root root (acc ++ [s]) hroot hroot
    | inner c2 l2 r2 =>
      simp only []
      exact ih q root (.inner c2 l2 r2) acc hroot rfl

theorem decodeGo_stops : ∀ (p : List Bool) (root cursor : Node) (acc : List Nat)
    (q : List Bool), Node.endsAtEom root cursor p = true →
    Node.decodeGo root cursor (p ++ q) acc = Node.decodeGo root cursor p acc := by
  intro p
  induction p with
  | nil =>
    intro root cursor acc q h
    simp [Node.endsAtEom] at h
  | cons b rest ih =>
    intro root cursor acc q h
    cases cursor with
    | leaf c v => simp [Node.endsAtEom] at h
    | inner c l r =>
      rw [Node.endsAtEom] at h
      rw [show ((b :: rest) ++ q) = b :: (rest ++ q) from rfl, Node.decodeGo, Node.decodeGo]
      cases hn : (if b then r else l) with
      | leaf c2 v =>
        rw [hn] at h
        cases v with
        | endOfMessage =>
          simp only [] at h
          have : rest = [] := by simpa [List.isEmpty_iff] using h
          subst this
          rfl
        | symbol s =>
          simp only [] at h
          exact ih root root (acc ++ [s]) q h
      | inner c2 l2 r2 =>
        rw [hn] at h
        simp only [] at h
        exact ih root (.inner c2 l2 r2) acc q h

/-! ### Codebook lemmas -/

theorem codeEntries_shift (t : Node) (path : List Bool) :
    t.codeEntries path = (t.codeEntries []).map (fun e => (e.1, path ++ e.2)) := by
  induction t generalizing path with
  | leaf c v => simp [Node.codeEntries]
  | inner c l r ihl ihr =>
    rw [Node.codeEntries, Node.codeEntries]
    simp only [List.nil_append]
    rw [ihl (path ++ [false]), ihr (path ++ [true]), ihl [false], ihr [true]]
    simp [List.map_map, Function.comp_def, List.append_assoc]

theorem map_fst_codeEntries (t : Node) (path : List Bool) :
    (t.codeEntries path).map Prod.fst = t.serValues := by
  induction t generalizing path with
  | leaf c v => simp [Node.codeEntries, Node.serValues]
  | inner c l r ihl ihr =>
    simp [Node.codeEntries, Node.serValues, ihl, ihr]

theorem lookupLast_mem : ∀ (entries : List (HuffmanValue × List Bool)) (v : HuffmanValue)
    (p : List Bool), lookupLast entries v = some p → (v, p) ∈ entries := by
  intro entries
  induction entries with
  | nil =>
    intro v p h
    simp [lookupLast] at h
  | cons e rest ih =>
    intro v p h
    obtain ⟨w, q⟩ := e
    rw [lookupLast] at h
    cases h1 : lookupLast rest v with
    | some q2 =>
      rw [h1] at h
      simp only [Option.some.injEq] at h
      subst h
      exact List.mem_cons_of_mem _ (ih v q2 h1)
    | none =>
      rw [h1] at h
      simp only [] at h
      rcases Decidable.em (w = v) with hw | hw
      · rw [if_pos hw] at h
        simp only [Option.some.injEq] at h
        subst hw
        subst h
        exact List.mem_cons_self _ _
      · rw [if_neg hw] at h
        simp at h

theorem lookupLast_isSome : ∀ (entries : List (HuffmanValue × List Bool)) (v : HuffmanValue),
    v ∈ entries.map Prod.fst → (lookupLast entries v).isSome = true := by
  intro entries
  induction entries with
  | nil =>
    intro v h
    simp at h
  | cons e rest ih =>
    intro v h
    obtain ⟨w, q⟩ := e
    rw [lookupLast]
    cases h1 : lookupLast rest v with
    | some q2 => simp
    | none =>
      simp only [List.map_cons, List.mem_cons] at h
      rcases h with h | h
      · simp only []
        rw [if_pos h.symm]
        rfl
      · have := ih v h
        rw [h1] at this
        simp at this

theorem decodeGo_code_eom : ∀ (cursor root : Node) (p : List Bool),
    cursor.isInner = true → (HuffmanValue.endOfMessage, p) ∈ cursor.codeEntries [] →
    ∀ (rest : List Bool) (acc : List Nat),
      Node.decodeGo root cursor (p ++ rest) acc = some acc := by
  intro cursor
  induction cursor with
  | leaf c v =>
    intro root p h
    simp [Node.isInner] at h
  | inner c l r ihl ihr =>
    intro root p hc hm rest acc
    rw [Node.codeEntries] at hm
    simp only [List.nil_append] at hm
    rw [codeEntries_shift l [false], codeEntries_shift r [true], List.mem_append] at hm
    rcases hm with hm | hm <;> rw [List.mem_map] at hm
    · obtain ⟨⟨v0, p0⟩, hmem, he⟩ := hm
      simp only [Prod.mk.injEq] at he
      obtain ⟨hv0, hp⟩ := he
      subst hv0
      rw [← hp]
      rw [show (([false] ++ p0) ++ rest) = false :: (p0 ++ rest) from rfl, Node.decodeGo]
      simp only [Bool.false_eq_true, if_false]
      cases l with
      | leaf c2 v2 =>
        simp only [Node.codeEntries, List.mem_singleton, Prod.mk.injEq] at hmem
        rw [← hmem.1]
      | inner c2 l2 r2 =>
        simp only []
        exact ihl root p0 rfl hmem rest acc
    · obtain ⟨⟨v0, p0⟩, hmem, he⟩ := hm
      simp only [Prod.mk.injEq] at he
      obtain ⟨hv0, hp⟩ := he
      subst hv0
      rw [← hp]
      rw [show (([true] ++ p0) ++ rest) = true :: (p0 ++ rest) from rfl, Node.decodeGo]
      rw [if_pos rfl]
      cases r with
      | leaf c2 v2 =>
        simp only [Node.codeEntries, List.mem_singleton, Prod.mk.injEq] at hmem
        rw [← hmem.1]
      | inner c2 l2 r2 =>
        simp only []
        exact ihr root p0 rfl hmem rest acc

theorem decodeGo_code_symbol : ∀ (cursor root : Node) (s : Nat) (p : List Bool),
    cursor.isInner = true → (HuffmanValue.symbol s, p) ∈ cursor.codeEntries [] →
    ∀ (rest : List Bool) (acc : List Nat),
      Node.decodeGo root cursor (p ++ rest) acc =
        Node.decodeGo root root rest (acc ++ [s]) := by
  intro cursor
  induction cursor with
  | leaf c v =>
    intro root s p h
    simp [Node.isInner] at h
  | inner c l r ihl ihr =>
    intro root s p hc hm rest acc
    rw [Node.codeEntries] at hm
    simp only [List.nil_append] at hm
    rw [codeEntries_shift l [false], codeEntries_shift r [true], List.mem_append] at hm
    rcases hm with hm | hm <;> rw [List.mem_map] at hm
    · obtain ⟨⟨v0, p0⟩, hmem, he⟩ := hm
      simp only [Prod.mk.injEq] at he
      obtain ⟨hv0, hp⟩ := he
      subst hv0
      rw [← hp]
      rw [show (([false] ++ p0) ++ rest) = false :: (p0 ++ rest) from rfl, Node.decodeGo]
      simp only [Bool.false_eq_true, if_false]
      cases l with
      | leaf c2 v2 =>
        simp only [Node.codeEntries, List.mem_singleton, Prod.mk.injEq] at hmem
        obtain ⟨h1, h2⟩ := hmem
        subst h2
        rw [← h1]
        simp
      | inner c2 l2 r2 =>
        simp only []
        exact ihl root s p0 rfl hmem rest acc
    · obtain ⟨⟨v0, p0⟩, hmem, he⟩ := hm
      simp only [Prod.mk.injEq] at he
      obtain ⟨hv0, hp⟩ := he
      subst hv0
      rw [← hp]
      rw [show (([true] ++ p0) ++ rest) = true :: (p0 ++ rest) from rfl, Node.decodeGo]
      rw [if_pos rfl]
      cases r with
      | leaf c2 v2 =>
        simp only [Node.codeEntries, List.mem_singleton, Prod.mk.injEq] at hmem
        obtain ⟨h1, h2⟩ := hmem
        subst h2
        rw [← h1]
        simp
      | inner c2 l2 r2 =>
        simp only []
        exact ihr root s p0 rfl hmem rest acc

theorem decodeGo_message : ∀ (bytes : List Nat) (root : Node) (msgBits : List Bool)
    (eomPath : List Bool) (acc : List Nat) (extra : List Bool),
    root.isInner = true →
    encodeLoop (root.codeEntries []) bytes = some msgBits →
    lookupLast (root.codeEntries []) .endOfMessage = some eomPath →
    Node.decodeGo root root ((msgBits ++ eomPath) ++ extra) acc = some (acc ++ bytes) := by
  intro bytes
  induction bytes with
  | nil =>
    intro root msgBits eomPath acc extra hroot henc heom
    rw [encodeLoop] at henc
    simp only [Option.some.injEq] at henc
    subst henc
    simp only [List.nil_append]
    rw [decodeGo_code_eom root root eomPath hroot
      (lookupLast_mem _ _ _ heom) extra acc]
    simp
  | cons b bs ih =>
    intro root msgBits eomPath acc extra hroot henc heom
    rw [encodeLoop] at henc
    cases h1 : lookupLast (root.codeEntries []) (.symbol b) with
    | none => rw [h1] at henc; simp at henc
    | some code =>
      rw [h1] at henc
      simp only [] at henc
      cases h2 : encodeLoop (root.codeEntries []) bs with
      | none => rw [h2] at henc; simp at henc
      | some tailBits =>
        rw [h2] at henc
        simp only [Option.some.injEq] at henc
        subst henc
        rw [show ((code ++ tailBits) ++ eomPath) ++ extra =
          code ++ ((tailBits ++ eomPath) ++ extra) by simp [List.append_assoc]]
        rw [decodeGo_code_symbol root root b code hroot (lookupLast_mem _ _ _ h1)]
        rw [ih root tailBits eomPath (acc ++ [b]) extra hroot h2 heom]
        simp

theorem encodeLoop_isSome : ∀ (bytes : List Nat) (entries : List (HuffmanValue × List Bool)),
    (∀ b ∈ bytes, HuffmanValue.symbol b ∈ entries.map Prod.fst) →
    ∃ msgBits, encodeLoop entries bytes = some msgBits := by
  intro bytes
  induction bytes with
  | nil => exact fun entries _ => ⟨[], rfl⟩
  | cons b bs ih =>
    intro entries h
    have hb := lookupLast_isSome entries (.symbol b) (h b (List.mem_cons_self _ _))
    obtain ⟨code, hcode⟩ := Option.isSome_iff_exists.mp hb
    obtain ⟨tailBits, htail⟩ := ih entries (fun x hx => h x (List.mem_cons_of_mem _ hx))
    refine ⟨code ++ tailBits, ?_⟩
    rw [encodeLoop, hcode]
    simp only []
    rw [htail]

/-! ### Tree builder lemmas -/

theorem length_insertByCount (n : Node) : ∀ (l : List Node),
    (insertByCount n l).length = l.length + 1 := by
  intro l
  induction l with
  | nil => rfl
  | cons m ms ih =>
    rw [insertByCount]
    rcases Decidable.em (n.count ≤ m.count) with h | h
    · rw [if_pos h]
      simp
    · rw [if_neg h]
      simp [ih]

theorem perm_insertByCount (n : Node) : ∀ (l : List Node),
    (insertByCount n l).Perm (n :: l) := by
  intro l
  induction l with
  | nil => exact List.Perm.refl _
  | cons m ms ih =>
    rw [insertByCount]
    rcases Decidable.em (n.count ≤ m.count) with h | h
    · rw [if_pos h]
    · rw [if_neg h]
      exact (ih.cons m).trans (List.Perm.swap n m ms)

theorem perm_sortByCount : ∀ (l : List Node), (sortByCount l).Perm l := by
  intro l
  induction l with
  | nil => exact List.Perm.refl _
  | cons m ms ih =>
    rw [show sortByCount (m :: ms) = insertByCount m (sortByCount ms) from rfl]
    exact (perm_insertByCount m (sortByCount ms)).trans (ih.cons m)

theorem length_sortByCount (l : List Node) : (sortByCount l).length = l.length :=
  (perm_sortByCount l).length_eq

theorem mergeLoopF_spec : ∀ (fuel : Nat) (nodes : List Node), nodes ≠ [] →
    nodes.length ≤ fuel + 1 →
    ∃ t, mergeLoopF fuel nodes = some t ∧
      t.leafPairs = (nodes.map Node.leafPairs).sum ∧
      (2 ≤ nodes.length → t.isInner = true) := by
  intro fuel
  induction fuel with
  | zero =>
    intro nodes hne hlen
    match nodes, hne with
    | [n], _ =>
      refine ⟨n, rfl, by simp, by simp⟩
    | n1 :: n2 :: rest, _ => simp at hlen
  | succ fuel ih =>
    intro nodes hne hlen
    match nodes, hne with
    | [n], _ =>
      refine ⟨n, rfl, by simp, by simp⟩
    | n1 :: n2 :: rest, _ =>
      have hslen : (sortByCount (n1 :: n2 :: rest)).length = rest.length + 2 := by
        rw [length_sortByCount]
        simp
      match hs : sortByCount (n1 :: n2 :: rest) with
      | [] => rw [hs] at hslen; simp at hslen
      | [a] => rw [hs] at hslen; simp at hslen
      | a :: b :: rest2 =>
        have hperm : (a :: b :: rest2).Perm (n1 :: n2 :: rest) := by
          rw [← hs]
          exact perm_sortByCount _
        have hsum : ((a :: b :: rest2).map Node.leafPairs).sum =
            ((n1 :: n2 :: rest).map Node.leafPairs).sum :=
          (hperm.map Node.leafPairs).sum_eq
        have hstep : mergeLoopF (fuel + 1) (n1 :: n2 :: rest) =
            mergeLoopF fuel (rest2 ++ [Node.join a b]) := by
          rw [mergeLoopF, hs]
        have hlen2 : (rest2 ++ [Node.join a b]).length ≤ fuel + 1 := by
          rw [hs] at hslen
          simp only [List.length_append, List.length_cons, List.length_nil] at hslen hlen ⊢
          omega
        obtain ⟨t, ht, hpairs, hinner⟩ :=
          ih (rest2 ++ [Node.join a b]) (by simp) hlen2
        refine ⟨t, by rw [hstep, ht], ?_, fun _ => ?_⟩
        · rw [hpairs, ← hsum]
          simp only [List.map_append, List.map_cons, List.map_nil, List.sum_append,
            List.sum_cons, List.sum_nil]
          rw [show (Node.join a b).leafPairs = a.leafPairs + b.leafPairs from rfl]
          abel
        · cases rest2 with
          | nil =>
            have : mergeLoopF fuel [Node.join a b] = some (Node.join a b) := by
              cases fuel <;> rfl
            rw [List.nil_append] at ht
            rw [this] at ht
            simp only [Option.some.injEq] at ht
            subst ht
            rfl
          | cons x xs =>
            exact hinner (by simp)

theorem distinctList_mem : ∀ (l : List Nat) (x : Nat), x ∈ distinctList l ↔ x ∈ l := by
  intro l
  induction l with
  | nil => simp [distinctList]
  | cons b rest ih =>
    intro x
    rw [distinctList]
    simp only [List.mem_cons, List.mem_filter, ih, decide_eq_true_eq]
    constructor
    · rintro (rfl | ⟨h1, _⟩)
      · exact Or.inl rfl
      · exact Or.inr h1
    · rintro (rfl | h1)
      · exact Or.inl rfl
      · rcases Decidable.em (x = b) with he | he
        · exact Or.inl he
        · exact Or.inr ⟨h1, he⟩

theorem distinctList_ne_nil (l : List Nat) (h : l ≠ []) : distinctList l ≠ [] := by
  cases l with
  | nil => exact absurd rfl h
  | cons b rest => simp [distinctList]

theorem sum_map_singleton {α β : Type} (f : α → β) : ∀ (l : List α),
    (l.map (fun x => ({f x} : Multiset β))).sum = ↑(l.map f) := by
  intro l
  induction l with
  | nil => rfl
  | cons x xs ih =>
    simp only [List.map_cons, List.sum_cons, ih]
    rfl

theorem tree_for_message_spec_aux (bytes : List Nat) (hne : bytes ≠ []) :
    ∃ t, Node.tree_for_message bytes = some t ∧ t.isInner = true ∧
      t.leafPairs =
        ↑((distinctList bytes).map (fun v => (bytes.count v, HuffmanValue.symbol v))) +
          {(0, HuffmanValue.endOfMessage)} := by
  rw [Node.tree_for_message, if_neg (by simpa [List.isEmpty_iff] using hne)]
  set nodes0 := (frequencies bytes).map (fun p => Node.leaf p.2 (.symbol p.1)) ++
    [Node.leaf 0 .endOfMessage] with hnodes0
  have hdne : distinctList bytes ≠ [] := distinctList_ne_nil bytes hne
  have hlen : 2 ≤ nodes0.length := by
    rw [hnodes0]
    simp only [List.length_append, List.length_map, List.length_cons, List.length_nil]
    have : 1 ≤ (frequencies bytes).length := by
      rw [frequencies, List.length_map]
      cases hd : distinctList bytes with
      | nil => exact absurd hd hdne
      | cons x xs => simp
    omega
  obtain ⟨t, ht, hpairs, hinner⟩ := mergeLoopF_spec nodes0.length nodes0
    (by intro hnil; rw [hnil] at hlen; simp at hlen) (by omega)
  refine ⟨t, ht, hinner hlen, ?_⟩
  rw [hpairs, hnodes0, frequencies]
  rw [List.map_append, List.map_map, List.map_map, List.sum_append]
  simp only [Function.comp_def, Node.leafPairs, List.map_cons, List.map_nil,
    List.sum_cons, List.sum_nil, add_zero]
  rw [sum_map_singleton (fun v => (bytes.count v, HuffmanValue.symbol v))]

/-! ### Leaf content lemmas -/

theorem hasEom_iff (t : Node) :
    t.hasEom = true ↔ ∃ c, (c, HuffmanValue.endOfMessage) ∈ t.leafPairs := by
  induction t with
  | leaf c v =>
    cases v with
    | symbol s => simp [Node.hasEom, Node.leafPairs]
    | endOfMessage =>
      simp only [Node.hasEom, Node.leafPairs]
      exact ⟨fun _ => ⟨c, by simp⟩, fun _ => by trivial⟩
  | inner c l r ihl ihr =>
    simp only [Node.hasEom, Node.leafPairs, Bool.or_eq_true, ihl, ihr, Multiset.mem_add]
    constructor
    · rintro (⟨c2, h⟩ | ⟨c2, h⟩)
      · exact ⟨c2, Or.inl h⟩
      · exact ⟨c2, Or.inr h⟩
    · rintro ⟨c2, h | h⟩
      · exact Or.inl ⟨c2, h⟩
      · exact Or.inr ⟨c2, h⟩

theorem validSymbols_iff (t : Node) :
    t.validSymbols = true ↔
      ∀ p ∈ t.leafPairs, ∀ s, p.2 = HuffmanValue.symbol s → s < 256 := by
  induction t with
  | leaf c v =>
    cases v with
    | symbol s =>
      simp only [Node.validSymbols, Node.leafPairs, decide_eq_true_eq]
      constructor
      · rintro h ⟨c2, v2⟩ hm s2 hs
        simp only [Multiset.mem_singleton, Prod.mk.injEq] at hm
        rw [hm.2] at hs
        injection hs with hs2
        omega
      · intro h
        exact h (c, .symbol s) (by simp) s rfl
    | endOfMessage =>
      simp only [Node.validSymbols, Node.leafPairs]
      constructor
      · rintro _ ⟨c2, v2⟩ hm s2 hs
        simp only [Multiset.mem_singleton, Prod.mk.injEq] at hm
        rw [hm.2] at hs
        cases hs
      · intro _
        trivial
  | inner c l r ihl ihr =>
    simp only [Node.validSymbols, Node.leafPairs, Bool.and_eq_true, ihl, ihr,
      Multiset.mem_add]
    constructor
    · rintro ⟨h1, h2⟩ p (hp | hp) s hs
      · exact h1 p hp s hs
      · exact h2 p hp s hs
    · intro h
      exact ⟨fun p hp s hs => h p (Or.inl hp) s hs, fun p hp s hs => h p (Or.inr hp) s hs⟩

theorem mem_serValues_iff (t : Node) (v : HuffmanValue) :
    v ∈ t.serValues ↔ ∃ c, (c, v) ∈ t.leafPairs := by
  induction t with
  | leaf c v2 =>
    simp only [Node.serValues, Node.leafPairs, List.mem_singleton, Multiset.mem_singleton]
    constructor
    · rintro rfl
      exact ⟨c, rfl⟩
    · rintro ⟨c2, h⟩
      simp only [Prod.mk.injEq] at h
      exact h.2
  | inner c l r ihl ihr =>
    simp only [Node.serValues, Node.leafPairs, List.mem_append, Multiset.mem_add, ihl, ihr]
    constructor
    · rintro (⟨c2, h⟩ | ⟨c2, h⟩)
      · exact ⟨c2, Or.inl h⟩
      · exact ⟨c2, Or.inr h⟩
    · rintro ⟨c2, h | h⟩
      · exact Or.inl ⟨c2, h⟩
      · exact Or.inr ⟨c2, h⟩

theorem countEom_eq_countP (t : Node) :
    t.countEom = Multiset.countP (fun p => p.2 = HuffmanValue.endOfMessage) t.leafPairs := by
  induction t with
  | leaf c v =>
    cases v with
    | symbol s =>
      rw [show (Node.leaf c (.symbol s)).leafPairs =
        (c, HuffmanValue.symbol s) ::ₘ 0 from rfl, Multiset.countP_cons]
      simp [Node.countEom]
    | endOfMessage =>
      rw [show (Node.leaf c .endOfMessage).leafPairs =
        (c, HuffmanValue.endOfMessage) ::ₘ 0 from rfl, Multiset.countP_cons]
      simp [Node.countEom]
  | inner c l r ihl ihr =>
    simp [Node.countEom, Node.leafPairs, Multiset.countP_add, ihl, ihr]

theorem codeEntries_min_length (t : Node) (path : List Bool) :
    ∀ e ∈ t.codeEntries path, path.length ≤ e.2.length := by
  induction t generalizing path with
  | leaf c v =>
    intro e he
    simp only [Node.codeEntries, List.mem_singleton] at he
    subst he
    exact le_rfl
  | inner c l r ihl ihr =>
    intro e he
    rw [Node.codeEntries, List.mem_append] at he
    rcases he with he | he
    · have := ihl (path ++ [false]) e he
      simp only [List.length_append, List.length_cons, List.length_nil] at this
      omega
    · have := ihr (path ++ [true]) e he
      simp only [List.length_append, List.length_cons, List.length_nil] at this
      omega

theorem codeEntries_pos_length (t : Node) (hinner : t.isInner = true) :
    ∀ e ∈ t.codeEntries [], 1 ≤ e.2.length := by
  obtain ⟨c, l, r, rfl⟩ := (isInner_iff_exists t).mp hinner
  intro e he
  rw [Node.codeEntries, List.mem_append] at he
  rcases he with he | he
  · have := codeEntries_min_length l ([] ++ [false]) e he
    simpa using this
  · have := codeEntries_min_length r ([] ++ [true]) e he
    simpa using this

theorem tree_props (bytes : List Nat) (t : Node) (hne : bytes ≠ [])
    (ht : Node.tree_for_message bytes = some t) :
    t.isInner = true ∧ t.hasEom = true ∧
      (isByteList bytes = true → t.validSymbols = true) ∧
      (∀ b ∈ bytes, HuffmanValue.symbol b ∈ t.serValues) ∧
      HuffmanValue.endOfMessage ∈ t.serValues := by
  obtain ⟨t2, ht2, hinner, hpairs⟩ := tree_for_message_spec_aux bytes hne
  rw [ht] at ht2
  injection ht2 with he
  subst he
  refine ⟨hinner, ?_, ?_, ?_, ?_⟩
  · rw [hasEom_iff]
    exact ⟨0, by rw [hpairs]; exact Multiset.mem_add.mpr (Or.inr (by simp))⟩
  · intro hb
    rw [validSymbols_iff]
    intro p hp s hs
    rw [hpairs] at hp
    rcases Multiset.mem_add.mp hp with hp | hp
    · rw [Multiset.mem_coe, List.mem_map] at hp
      obtain ⟨v, hv, hpv⟩ := hp
      rw [← hpv] at hs
      simp only [] at hs
      injection hs with hs2
      subst hs2
      have hvb : v ∈ bytes := (distinctList_mem bytes v).mp hv
      rw [isByteList] at hb
      have := List.all_eq_true.mp hb v hvb
      simpa using this
    · simp only [Multiset.mem_singleton] at hp
      rw [hp] at hs
      simp at hs
  · intro b hbmem
    rw [mem_serValues_iff]
    refine ⟨bytes.count b, ?_⟩
    rw [hpairs]
    refine Multiset.mem_add.mpr (Or.inl ?_)
    rw [Multiset.mem_coe, List.mem_map]
    exact ⟨b, (distinctList_mem bytes b).mpr hbmem, rfl⟩
  · rw [mem_serValues_iff]
    exact ⟨0, by rw [hpairs]; exact Multiset.mem_add.mpr (Or.inr (by simp))⟩

/-! ### Claim theorems -/

/-- C9: `encode` fails with `NoData` exactly on the empty buffer, and so does
`decode`; on the empty buffer neither operation returns any other result. -/
theorem nodata_iff_empty (bytes : List Nat) :
    (encode bytes = some (.error .NoData) ↔ bytes = []) ∧
    (decode bytes = some (.error .NoData) ↔ bytes = []) := by
  constructor
  · constructor
    · intro h
      by_contra hne
      rw [encode, if_neg (by simp [List.isEmpty_iff, hne])] at h
      cases h1 : Node.tree_for_message bytes with
      | none =>
        rw [h1] at h
        simp at h
      | some tree =>
        rw [h1] at h
        simp only [] at h
        cases h2 : tree.encode bytes with
        | none => rw [h2] at h; simp at h
        | some msg => rw [h2] at h; simp at h
    · rintro rfl
      rfl
  · constructor
    · intro h
      by_contra hne
      rw [decode, if_neg (by simp [List.isEmpty_iff, hne])] at h
      cases h1 : Node.deserialize (bytesToBits bytes) with
      | none => rw [h1] at h; simp at h
      | some o =>
        rw [h1] at h
        cases o with
        | none => simp at h
        | some pr =>
          obtain ⟨tree, bits⟩ := pr
          simp only [] at h
          cases h2 : tree.decode bits with
          | none => rw [h2] at h; simp at h
          | some out => rw [h2] at h; simp at h
    · rintro rfl
      rfl

/-- C3: `decode` never panics — it always returns a value, on every byte
buffer of any length and content (every failure is a reported error value) —
and decoding the ASCII bytes of the foreign string fails with
`FailedToDecodeHuffmanTree`. -/
theorem decode_total_and_rejects_foreign :
    (∀ bytes : List Nat, (decode bytes).isSome = true) ∧
    decode [72, 101, 108, 108, 111, 44, 32, 119, 111, 114, 108, 100, 33] =
      some (.error .FailedToDecodeHuffmanTree) := by
  constructor
  · intro bytes
    rcases Decidable.em (bytes = []) with h | h
    · subst h
      rfl
    · rw [decode, if_neg (by simp [List.isEmpty_iff, h])]
      obtain ⟨o, ho⟩ := Option.isSome_iff_exists.mp (deserialize_isSome (bytesToBits bytes))
      rw [ho]
      cases o with
      | none => rfl
      | some pr =>
        obtain ⟨tree, bits⟩ := pr
        simp only []
        have hinner := deserialize_ok_isInner _ _ _ ho
        obtain ⟨c, l, r, rfl⟩ := (isInner_iff_exists tree).mp hinner
        obtain ⟨tail, htail⟩ :=
          decodeGo_acc_append bits (.inner c l r) (.inner c l r) [] rfl rfl
        rw [show Node.decode (.inner c l r) bits =
          Node.decodeGo (.inner c l r) (.inner c l r) bits [] from rfl, htail]
        rfl
  · decide

/-- C2: decoding stops at the first EndOfMessage leaf reached: if the decode
walk over `p` reaches an EOM leaf exactly at the end of `p`, then decoding
`p ++ q` equals decoding `p`, for every suffix `q` — no bit after that point
influences the result. -/
theorem decode_stops_at_first_eom (t : Node) (p q : List Bool)
    (h : Node.endsAtEom t t p = true) :
    Node.decode t (p ++ q) = Node.decode t p := by
  cases t with
  | leaf c v =>
    exfalso
    cases p with
    | nil => simp [Node.endsAtEom] at h
    | cons b rest =>
      rw [Node.endsAtEom] at h
      simp at h
  | inner c l r =>
    exact decodeGo_stops p (.inner c l r) (.inner c l r) [] q h

/-- C2 witness: a concrete tree and bit sequence ending exactly at the EOM
leaf; appending further bits does not change the decode result. -/
theorem decode_stops_at_first_eom_witness :
    Node.endsAtEom (.inner 0 (.leaf 0 .endOfMessage) (.leaf 0 (.symbol 5)))
      (.inner 0 (.leaf 0 .endOfMessage) (.leaf 0 (.symbol 5)))
      [true, true, false] = true ∧
    Node.decode (.inner 0 (.leaf 0 .endOfMessage) (.leaf 0 (.symbol 5)))
        ([true, true, false] ++ [true, false]) =
      Node.decode (.inner 0 (.leaf 0 .endOfMessage) (.leaf 0 (.symbol 5)))
        [true, true, false] :=
  ⟨by decide, decode_stops_at_first_eom _ [true, true, false] [true, false] (by decide)⟩

/-- C7: `serialize` emits the preorder structural prefix — one bit per node,
`1` for a leaf, `0` for an inner node followed by its left then right subtree
— of total length `2L - 1`, followed by one 9-bit group per leaf in the same
preorder: `1` plus 8 zero bits for EOM, `0` plus the symbol's 8-bit value
least-significant-bit first. -/
theorem serialize_layout (t : Node) :
    t.serialize = t.serStruct ++ t.serValues.flatMap encodeLeafValue ∧
    (∀ c v, (Node.leaf c v).serStruct = [true]) ∧
    (∀ c l r, (Node.inner c l r).serStruct = false :: (l.serStruct ++ r.serStruct)) ∧
    t.serStruct.length = 2 * t.numLeaves - 1 ∧
    t.serValues.length = t.numLeaves ∧
    encodeLeafValue .endOfMessage = true :: List.replicate 8 false ∧
    (∀ s, encodeLeafValue (.symbol s) = false :: natToBitsLsb 8 s ∧
      (natToBitsLsb 8 s).length = 8 ∧ loadLsb (natToBitsLsb 8 s) = s % 2 ^ 8) :=
  ⟨rfl, fun _ _ => rfl, fun _ _ _ => rfl, length_serStruct t, length_serValues t,
    by decide, fun s => ⟨rfl, length_natToBitsLsb 8 s, loadLsb_natToBitsLsb 8 s⟩⟩

/-- C4: on a non-empty buffer, `decode` returns `FailedToDecodeHuffmanTree`
exactly when header parsing fails: the structural prefix runs off the end of
the buffer, fewer than `9 * leaf_count` bits remain after the structural
prefix, no EOM leaf was decoded among the leaf values, or the parsed tree is
a single bare leaf. -/
theorem decode_tree_error_iff (bytes : List Nat) (hne : bytes ≠ []) :
    decode bytes = some (.error .FailedToDecodeHuffmanTree) ↔
      (desHelperR (bytesToBits bytes) 0 = none ∨
        ∃ t rem lc, desHelperR (bytesToBits bytes) 0 = some (t, rem, lc) ∧
          (rem.length < lc * 9 ∨
            ∃ t2 rem2 se, desTraverse t rem false = some (t2, rem2, se) ∧
              (se = false ∨ t2.isLeafNode = true))) := by
  rw [decode, if_neg (by simp [List.isEmpty_iff, hne]), Node.deserialize]
  cases hh : desHelperR (bytesToBits bytes) 0 with
  | none =>
    simp only []
    exact ⟨fun _ => Or.inl (by trivial), fun _ => by trivial⟩
  | some v =>
    obtain ⟨t, rem, lc⟩ := v
    simp only []
    rcases Decidable.em (rem.length < lc * 9) with hg | hg
    · rw [if_pos hg]
      simp only []
      exact ⟨fun _ => Or.inr ⟨t, rem, lc, by trivial, Or.inl hg⟩, fun _ => by trivial⟩
    · rw [if_neg hg]
      have hlc : lc = 0 + t.numLeaves := (desHelperF_shrink _ _ _ _ _ _ hh).2
      have hle : 9 * t.numLeaves ≤ rem.length := by omega
      obtain ⟨t2, rem2, se, htr, _⟩ := desTraverse_total t rem false hle
      rw [htr]
      simp only []
      cases se with
      | false =>
        rw [if_neg (by simp)]
        simp only []
        exact ⟨fun _ => Or.inr ⟨t, rem, lc, by trivial,
          Or.inr ⟨t2, rem2, false, htr, Or.inl rfl⟩⟩, fun _ => by trivial⟩
      | true =>
        rw [if_pos rfl]
        cases hlf : t2.isLeafNode with
        | true =>
          rw [if_pos rfl]
          simp only []
          exact ⟨fun _ => Or.inr ⟨t, rem, lc, by trivial,
            Or.inr ⟨t2, rem2, true, htr, Or.inr hlf⟩⟩, fun _ => by trivial⟩
        | false =>
          rw [if_neg (by simp)]
          simp only []
          constructor
          · intro hcontra
            exfalso
            cases h2 : t2.decode rem2 with
            | none => rw [h2] at hcontra; simp at hcontra
            | some out => rw [h2] at hcontra; simp at hcontra
          · rintro (h | ⟨t', rem', lc', heq, hrest⟩)
            · exact absurd h (by simp)
            · simp only [Option.some.injEq, Prod.mk.injEq] at heq
              obtain ⟨he1, he2, he3⟩ := heq
              subst he1
              subst he2
              subst he3
              rcases hrest with hlen | ⟨t2', rem2', se', htr', hbad⟩
              · exact absurd hlen hg
              · rw [htr] at htr'
                simp only [Option.some.injEq, Prod.mk.injEq] at htr'
                obtain ⟨hb1, hb2, hb3⟩ := htr'
                rcases hbad with hbad | hbad
                · rw [← hb3] at hbad
                  exact absurd hbad (by simp)
                · rw [← hb1] at hbad
                  rw [hlf] at hbad
                  exact absurd hbad (by simp)

/-- C4 witness: the one-byte buffer `[1]` parses a single leaf and leaves only
7 bits, fewer than the 9 its one leaf needs, so decode fails. -/
theorem decode_tree_error_iff_witness :
    ([1] : List Nat) ≠ [] ∧
    (decode [1] = some (.error .FailedToDecodeHuffmanTree) ↔
      (desHelperR (bytesToBits [1]) 0 = none ∨
        ∃ t rem lc, desHelperR (bytesToBits [1]) 0 = some (t, rem, lc) ∧
          (rem.length < lc * 9 ∨
            ∃ t2 rem2 se, desTraverse t rem false = some (t2, rem2, se) ∧
              (se = false ∨ t2.isLeafNode = true)))) :=
  ⟨by decide, decode_tree_error_iff [1] (by decide)⟩

/-- C5 counterexample: a handcrafted header whose leaf-value block holds two
EOM leaves (structural prefix `011`, both 9-bit groups flagged EOM) is
accepted: `decode [14, 16, 0]` returns `Ok []`, not
`FailedToDecodeHuffmanTree` — the deserializer only tracks a boolean
`seen_eom`, so it enforces at least one EOM, not exactly one. -/
theorem two_eom_header_accepted :
    (∃ t rem lc t2 rem2, desHelperR (bytesToBits [14, 16, 0]) 0 = some (t, rem, lc) ∧
      desTraverse t rem false = some (t2, rem2, true) ∧ t2.countEom = 2) ∧
    decode [14, 16, 0] = some (.ok []) ∧
    ¬decode [14, 16, 0] = some (.error .FailedToDecodeHuffmanTree) :=
  ⟨⟨Node.inner 0 (.leaf 0 (.symbol 0)) (.leaf 0 (.symbol 0)),
    [true, false, false, false, false, false, false, false, false,
      true, false, false, false, false, false, false, false, false, false, false, false],
    2,
    Node.inner 0 (.leaf 0 .endOfMessage) (.leaf 0 .endOfMessage),
    [false, false, false],
    by decide, by decide, by decide⟩, by decide, by decide⟩

/-- C5 (amended): the deserializer enforces that at least one EOM leaf was
observed: a header whose leaf-value block decodes with `seen_eom` still false
(zero EOM leaves) makes decode fail with `FailedToDecodeHuffmanTree`. -/
theorem zero_eom_header_rejected (bytes : List Nat) (t : Node) (rem : List Bool)
    (lc : Nat) (t2 : Node) (rem2 : List Bool) (hne : bytes ≠ [])
    (hh : desHelperR (bytesToBits bytes) 0 = some (t, rem, lc))
    (htr : desTraverse t rem false = some (t2, rem2, false)) :
    decode bytes = some (.error .FailedToDecodeHuffmanTree) := by
  rw [decode, if_neg (by simp [List.isEmpty_iff, hne]), Node.deserialize, hh]
  simp only []
  rcases Decidable.em (rem.length < lc * 9) with hg | hg
  · rw [if_pos hg]
  · rw [if_neg hg, htr]
    simp only []
    rw [if_neg (by simp)]

/-- C5 amended-theorem witness: a header with two symbol leaves and no EOM
leaf is rejected. -/
theorem zero_eom_header_rejected_witness :
    ([22, 64, 0] : List Nat) ≠ [] ∧
    desHelperR (bytesToBits [22, 64, 0]) 0 =
      some (Node.inner 0 (.leaf 0 (.symbol 0)) (.leaf 0 (.symbol 0)),
        [false, true, false, false, false, false, false, false, false,
          false, false, true, false, false, false, false, false, false,
          false, false, false], 2) ∧
    desTraverse (Node.inner 0 (.leaf 0 (.symbol 0)) (.leaf 0 (.symbol 0)))
        [false, true, false, false, false, false, false, false, false,
          false, false, true, false, false, false, false, false, false,
          false, false, false] false =
      some (Node.inner 0 (.leaf 0 (.symbol 1)) (.leaf 0 (.symbol 2)),
        [false, false, false], false) ∧
    decode [22, 64, 0] = some (.error .FailedToDecodeHuffmanTree) :=
  ⟨by decide, by decide, by decide,
    zero_eom_header_rejected [22, 64, 0]
      (Node.inner 0 (.leaf 0 (.symbol 0)) (.leaf 0 (.symbol 0)))
      [false, true, false, false, false, false, false, false, false,
        false, false, true, false, false, false, false, false, false,
        false, false, false]
      2
      (Node.inner 0 (.leaf 0 (.symbol 1)) (.leaf 0 (.symbol 2)))
      [false, false, false]
      (by decide) (by decide) (by decide)⟩

/-- C6: when the header parses and validates, `decode` returns `Ok`, never an
error, whatever the payload holds; and decoding the payload extended by any
further bits only appends to the decoded output — truncation can shorten the
output but cannot make decode fail. -/
theorem decode_lenient_after_valid_header (bytes : List Nat) (t : Node)
    (rest : List Bool) (hne : bytes ≠ [])
    (hdes : Node.deserialize (bytesToBits bytes) = some (some (t, rest))) :
    ∃ out, decode bytes = some (.ok out) ∧
      ∀ q, ∃ out2 tail, Node.decode t (rest ++ q) = some out2 ∧ out2 = out ++ tail := by
  have hinner := deserialize_ok_isInner _ _ _ hdes
  obtain ⟨c, l, r, rfl⟩ := (isInner_iff_exists t).mp hinner
  obtain ⟨tail0, h0⟩ := decodeGo_acc_append rest (.inner c l r) (.inner c l r) [] rfl rfl
  refine ⟨tail0, ?_, ?_⟩
  · rw [decode, if_neg (by simp [List.isEmpty_iff, hne]), hdes]
    simp only []
    rw [show Node.decode (.inner c l r) rest =
      Node.decodeGo (.inner c l r) (.inner c l r) rest [] from rfl, h0]
    simp
  · intro q
    obtain ⟨out, tail, hout, hext⟩ :=
      decodeGo_extend rest q (.inner c l r) (.inner c l r) [] rfl rfl
    rw [h0] at hout
    simp only [List.nil_append, Option.some.injEq] at hout
    subst hout
    refine ⟨tail0 ++ tail, tail, ?_, rfl⟩
    rw [show Node.decode (.inner c l r) (rest ++ q) =
      Node.decodeGo (.inner c l r) (.inner c l r) (rest ++ q) [] from rfl, hext]

/-- C6 witness: a valid two-leaf header followed by a one-bit payload and pad
bits; decode succeeds, returning the symbol decoded so far. -/
theorem decode_lenient_after_valid_header_witness :
    ([14, 96, 32] : List Nat) ≠ [] ∧
    Node.deserialize (bytesToBits [14, 96, 32]) =
      some (some (Node.inner 0 (.leaf 0 .endOfMessage) (.leaf 0 (.symbol 3)),
        [true, false, false])) ∧
    (∃ out, decode [14, 96, 32] = some (.ok out) ∧
      ∀ q, ∃ out2 tail,
        Node.decode (Node.inner 0 (.leaf 0 .endOfMessage) (.leaf 0 (.symbol 3)))
          ([true, false, false] ++ q) = some out2 ∧ out2 = out ++ tail) :=
  ⟨by decide, by decide,
    decode_lenient_after_valid_header [14, 96, 32]
      (Node.inner 0 (.leaf 0 .endOfMessage) (.leaf 0 (.symbol 3)))
      [true, false, false] (by decide) (by decide)⟩

/-- C8: on a non-empty buffer, `tree_for_message` returns a tree whose root is
always an inner node, whose leaves are exactly one weighted leaf per distinct
input byte plus exactly one zero-weight EndOfMessage leaf, and in which every
leaf — including EOM — has a root-to-leaf bit path of length at least 1. -/
theorem tree_for_message_shape (bytes : List Nat) (hne : bytes ≠ []) :
    ∃ t, Node.tree_for_message bytes = some t ∧ t.isInner = true ∧ t.countEom = 1 ∧
      t.leafPairs =
        ↑((distinctList bytes).map (fun v => (bytes.count v, HuffmanValue.symbol v))) +
          {(0, HuffmanValue.endOfMessage)} ∧
      (t.codeEntries []).all (fun e => decide (1 ≤ e.2.length)) = true := by
  obtain ⟨t, ht, hinner, hpairs⟩ := tree_for_message_spec_aux bytes hne
  refine ⟨t, ht, hinner, ?_, hpairs, ?_⟩
  · rw [countEom_eq_countP, hpairs, Multiset.countP_add, Multiset.coe_countP]
    have h0 : List.countP
        (fun b => decide (b.2 = HuffmanValue.endOfMessage))
        ((distinctList bytes).map (fun v => (bytes.count v, HuffmanValue.symbol v))) = 0 := by
      rw [List.countP_eq_zero]
      intro a ha
      rw [List.mem_map] at ha
      obtain ⟨v, _, rfl⟩ := ha
      simp
    rw [h0]
    rw [show ({(0, HuffmanValue.endOfMessage)} : Multiset (Nat × HuffmanValue)) =
      (0, HuffmanValue.endOfMessage) ::ₘ 0 from rfl, Multiset.countP_cons]
    simp
  · rw [List.all_eq_true]
    intro e he
    have := codeEntries_pos_length t hinner e he
    simpa using this

/-- C8 witness: the two-byte buffer `[5, 5]`. -/
theorem tree_for_message_shape_witness :
    ([5, 5] : List Nat) ≠ [] ∧
    (∃ t, Node.tree_for_message [5, 5] = some t ∧ t.isInner = true ∧ t.countEom = 1 ∧
      t.leafPairs =
        ↑((distinctList [5, 5]).map (fun v => (([5, 5] : List Nat).count v,
          HuffmanValue.symbol v))) + {(0, HuffmanValue.endOfMessage)} ∧
      (t.codeEntries []).all (fun e => decide (1 ≤ e.2.length)) = true) :=
  ⟨by decide, tree_for_message_shape [5, 5] (by decide)⟩

/-- C10: for every tree built by `tree_for_message` on a non-empty byte buffer
and every trailing bit sequence `r`, deserializing `serialize t ++ r` succeeds
and returns the same tree with weights reset to zero together with exactly the
remainder `r`, having consumed exactly `(2L - 1) + 9L` bits. -/
theorem serialize_deserialize_roundtrip (bytes : List Nat) (t : Node)
    (hne : bytes ≠ []) (hb : isByteList bytes = true)
    (ht : Node.tree_for_message bytes = some t) :
    (∀ r, Node.deserialize (t.serialize ++ r) = some (some (t.resetCounts, r))) ∧
    t.serialize.length = (2 * t.numLeaves - 1) + 9 * t.numLeaves := by
  obtain ⟨hinner, heom, hvalid, _, _⟩ := tree_props bytes t hne ht
  exact ⟨fun r => deserialize_serialize t heom (hvalid hb) hinner r, length_serialize t⟩

/-- C10 witness: the buffer `[3]` and its concrete tree. -/
theorem serialize_deserialize_roundtrip_witness :
    ([3] : List Nat) ≠ [] ∧ isByteList [3] = true ∧
    Node.tree_for_message [3] =
      some (Node.inner 1 (.leaf 0 .endOfMessage) (.leaf 1 (.symbol 3))) ∧
    (∀ r, Node.deserialize
        ((Node.inner 1 (.leaf 0 .endOfMessage) (.leaf 1 (.symbol 3))).serialize ++ r) =
      some (some ((Node.inner 1 (.leaf 0 .endOfMessage)
        (.leaf 1 (.symbol 3))).resetCounts, r))) ∧
    (Node.inner 1 (.leaf 0 .endOfMessage) (.leaf 1 (.symbol 3))).serialize.length =
      (2 * (Node.inner 1 (.leaf 0 .endOfMessage) (.leaf 1 (.symbol 3))).numLeaves - 1) +
        9 * (Node.inner 1 (.leaf 0 .endOfMessage) (.leaf 1 (.symbol 3))).numLeaves :=
  ⟨by decide, by decide, by decide,
    (serialize_deserialize_roundtrip [3]
      (Node.inner 1 (.leaf 0 .endOfMessage) (.leaf 1 (.symbol 3)))
      (by decide) (by decide) (by decide)).1,
    (serialize_deserialize_roundtrip [3]
      (Node.inner 1 (.leaf 0 .endOfMessage) (.leaf 1 (.symbol 3)))
      (by decide) (by decide) (by decide)).2⟩

/-- C1: for every non-empty byte buffer, `encode` succeeds and `decode` of the
result returns exactly the original buffer — the pair is a lossless round
trip. -/
theorem encode_decode_roundtrip (bytes : List Nat) (hne : bytes ≠ [])
    (hb : isByteList bytes = true) :
    ∃ out, encode bytes = some (.ok out) ∧ decode out = some (.ok bytes) := by
  obtain ⟨t, ht, _, _⟩ := tree_for_message_spec_aux bytes hne
  obtain ⟨hinner, heom, hvalid, hsyms, heomv⟩ := tree_props bytes t hne ht
  have hsyms2 : ∀ b ∈ bytes, HuffmanValue.symbol b ∈ (t.codeEntries []).map Prod.fst := by
    intro b hb2
    rw [map_fst_codeEntries]
    exact hsyms b hb2
  obtain ⟨msgBits, hmsg⟩ := encodeLoop_isSome bytes (t.codeEntries []) hsyms2
  have heoml : (lookupLast (t.codeEntries []) .endOfMessage).isSome = true := by
    apply lookupLast_isSome
    rw [map_fst_codeEntries]
    exact heomv
  obtain ⟨eomPath, heomp⟩ := Option.isSome_iff_exists.mp heoml
  have hencN : t.encode bytes = some (msgBits ++ eomPath) := by
    rw [Node.encode, hmsg]
    simp only []
    rw [heomp]
  have henc : encode bytes =
      some (.ok (bitsToBytes (t.serialize ++ (msgBits ++ eomPath)))) := by
    rw [encode, if_neg (by simp [List.isEmpty_iff, hne]), ht]
    simp only []
    rw [hencN]
  refine ⟨bitsToBytes (t.serialize ++ (msgBits ++ eomPath)), henc, ?_⟩
  have houtne : bitsToBytes (t.serialize ++ (msgBits ++ eomPath)) ≠ [] :=
    bitsToBytes_ne_nil _ (by simp [serialize_ne_nil t])
  obtain ⟨k, hk⟩ := bytesToBits_bitsToBytes (t.serialize ++ (msgBits ++ eomPath))
  rw [decode, if_neg (by simp [List.isEmpty_iff, houtne]), hk]
  rw [show (t.serialize ++ (msgBits ++ eomPath)) ++ List.replicate k false =
    t.serialize ++ ((msgBits ++ eomPath) ++ List.replicate k false) by
      simp [List.append_assoc]]
  rw [deserialize_serialize t heom (hvalid hb) hinner]
  simp only []
  have hinner2 : t.resetCounts.isInner = true := by
    rw [isInner_resetCounts]
    exact hinner
  obtain ⟨c, l, r, hrc⟩ := (isInner_iff_exists t.resetCounts).mp hinner2
  have hmsg2 : encodeLoop (t.resetCounts.codeEntries []) bytes = some msgBits := by
    rw [codeEntries_resetCounts]
    exact hmsg
  have heomp2 : lookupLast (t.resetCounts.codeEntries []) .endOfMessage = some eomPath := by
    rw [codeEntries_resetCounts]
    exact heomp
  have hdec := decodeGo_message bytes t.resetCounts msgBits eomPath []
    (List.replicate k false) hinner2 hmsg2 heomp2
  rw [hrc] at hdec
  rw [hrc, show Node.decode (.inner c l r) ((msgBits ++ eomPath) ++ List.replicate k false) =
    Node.decodeGo (.inner c l r) (.inner c l r)
      ((msgBits ++ eomPath) ++ List.replicate k false) [] from rfl, hdec]
  simp

/-- C1 witness: the two-byte buffer `[1, 2]` round-trips. -/
theorem encode_decode_roundtrip_witness :
    ([1, 2] : List Nat) ≠ [] ∧ isByteList [1, 2] = true ∧
    (∃ out, encode [1, 2] = some (.ok out) ∧ decode out = some (.ok [1, 2])) :=
  ⟨by decide, by decide, encode_decode_roundtrip [1, 2] (by decide) (by decide)⟩

end Huffnpuff
